import Mathlib

/-!
A verification development for a 3D (3 x 3 x 3) tic-tac-toe engine (`ttt.py`).

The engine state is a `Board`: a flat sequence of 27 cells, a list
`allowed_moves` of currently legal positions, and a move counter.  In the
Python source each cell holds either its own index (empty) or a player
character; no engine code ever reads the numeric value of an empty cell
(`get_moves`, `check_available`, `winner` only compare cells against player
marks, and `undo_move` writes the index back), so a cell is modelled as
`Option Player`, `none` standing for the cell that still holds its index.

Python exceptions are modelled with `Except PyExc`: an operation that would
raise returns `.error e` where `e` names the Python exception class raised
(`list.remove` raises `ValueError`; out-of-range list assignment raises
`IndexError`).  The engine defines no exception class of its own; the
specification's `IllegalMoveError` is also provided as a constructor so that
statements about it can be expressed.
-/

inductive Player : Type where
  | X : Player
  | O : Player
deriving DecidableEq, Repr

inductive PyExc : Type where
  | valueError : PyExc
  | indexError : PyExc
  | illegalMoveError : PyExc
deriving DecidableEq, Repr

/-- Python `list.remove(x)`: remove the first occurrence of `x`, raising
`ValueError` (modelled as `none`) when `x` is absent. -/
def listRemove : List Nat → Nat → Option (List Nat)
  | [], _ => none
  | a :: rest, x => if a = x then some rest else (listRemove rest x).map (a :: ·)

/-- Python `list.sort()` on a list of ints: ascending order. -/
def pySort (l : List Nat) : List Nat := l.insertionSort (· ≤ ·)

def DEFEND : Int := 1001

def LOSE : Int := -1000

def WIN : Int := 1000

def TIE : Int := 0

/-- The game state object of `ttt.py` (class `Board`): 27 cells, the list of
currently allowed moves, and the move counter. -/
structure Board : Type where
  board : List (Option Player)
  allowed_moves : List Nat
  moves : Int
deriving DecidableEq, Repr

/-- The 49 winning lines, transcribed in source order from
`Board.winning_combos`. -/
def winning_combos : List (List Nat) :=
  [[0, 1, 2], [3, 4, 5], [6, 7, 8], [9, 10, 11], [12, 13, 14],
   [15, 16, 17], [18, 19, 20], [21, 22, 23], [24, 25, 26],

   [0, 3, 6], [1, 4, 7], [2, 5, 8], [9, 12, 15], [10, 13, 16],
   [11, 14, 17], [18, 21, 24], [19, 22, 25], [20, 23, 26],

   [0, 4, 8], [2, 4, 6], [9, 13, 17], [11, 13, 15], [18, 22, 26],
   [20, 22, 24],

   [0, 9, 18], [1, 10, 19], [2, 11, 20], [3, 12, 21], [4, 13, 22],
   [5, 14, 23], [6, 15, 24], [7, 16, 25], [8, 17, 26],

   [0, 12, 24], [1, 13, 25], [2, 14, 26], [6, 12, 18], [7, 13, 19],
   [8, 14, 20], [0, 10, 20], [3, 13, 23], [6, 16, 26], [2, 10, 18],
   [5, 13, 21], [8, 16, 24], [0, 13, 26], [2, 13, 24], [6, 13, 20],
   [8, 13, 18]]

/-- The tuple `self.players = (PLAYER_1, PLAYER_2)` with `PLAYER_1 = 'X'` and
`PLAYER_2 = 'O'`. -/
def playersList : List Player := [Player.X, Player.O]

namespace Board

/-- Reading `self.board[q]`: `cellAt bd q` is `some mark` when the cell holds a
player mark and `none` when it still holds its index. -/
def cellAt (bd : List (Option Player)) (q : Nat) : Option Player := bd.getD q none

/-- The state built by `Board.__init__`: `create_board()` fills all 27 cells
with their own indices (empty), `allowed_moves = list(range(9))`, `moves = 0`. -/
def init : Board :=
  { board := List.replicate 27 none, allowed_moves := List.range 9, moves := 0 }

/-- Source `Board.get_moves`: the indices `i in range(27)` with
`board[i] == player`, in increasing order. -/
def get_moves (s : Board) (player : Player) : List Nat :=
  (List.range 27).filter (fun i => cellAt s.board i == some player)

/-- Source `Board.available_combos`: `list(self.allowed_moves) + self.get_moves(player)`. -/
def available_combos (s : Board) (player : Player) : List Nat :=
  s.allowed_moves ++ s.get_moves player

/-- Source `Board.winner`: scan the players in order `(PLAYER_1, PLAYER_2)` and
return the first one owning a fully occupied winning line. -/
def winner (s : Board) : Option Player :=
  playersList.find? (fun player =>
    winning_combos.any (fun combo =>
      combo.all (fun pos => decide (pos ∈ s.get_moves player))))

/-- Source `Board.winning_combo`: when a winner exists, the first line of
`winning_combos` fully contained in the winner's move list. -/
def winning_combo (s : Board) : Option (List Nat) :=
  match s.winner with
  | none => none
  | some w => winning_combos.find? (fun combo =>
      combo.all (fun pos => decide (pos ∈ s.get_moves w)))

/-- Source `Board.complete`: if some player still has a line all of whose cells
are in `available_combos(player)`, the game is over exactly when a winner
exists; with no such line for either player it returns `True`. -/
def complete (s : Board) : Bool :=
  if playersList.any (fun player =>
      winning_combos.any (fun combo =>
        combo.all (fun pos => decide (pos ∈ s.available_combos player))))
  then s.winner.isSome
  else true

/-- Source `Board.find_value`: `self.board[key]`. -/
def find_value (s : Board) (key : Nat) : Option Player := cellAt s.board key

/-- Source `Board.check_available`: count the lines in which every cell is
either `player` or not `enemy` (an empty cell satisfies the second disjunct,
exactly as the Python int value is `!= enemy`). -/
def check_available (s : Board) (player enemy : Player) : Nat :=
  (winning_combos.filter (fun combo =>
    combo.all (fun x => s.find_value x == some player || s.find_value x != some enemy))).length

/-- Source `Board.move`: `allowed_moves.remove(position)` (raising `ValueError`
when the position is not allowed), gravity unlock of `position + 9` for
`position < 18`, increment of `moves`, re-sort, and the cell assignment
`board[position] = player` (raising `IndexError` when out of range, which no
reachable state can trigger since allowed positions are below 27). -/
def move (s : Board) (position : Nat) (player : Player) : Except PyExc Board :=
  match listRemove s.allowed_moves position with
  | none => .error .valueError
  | some l =>
    let l2 := if position < 18 then l ++ [position + 9] else l
    if position < s.board.length then
      .ok { board := s.board.set position (some player),
            allowed_moves := pySort l2,
            moves := s.moves + 1 }
    else .error .indexError

/-- Source `Board.undo_move`: append `position` to `allowed_moves`, remove the
gravity cell `position + 9` when `position < 18` (raising `ValueError` when it
is absent), decrement `moves`, re-sort, and empty the cell
(`board[position] = position`). -/
def undo_move (s : Board) (position : Nat) : Except PyExc Board :=
  let l := s.allowed_moves ++ [position]
  match (if position < 18 then listRemove l (position + 9) else some l) with
  | none => .error .valueError
  | some l2 =>
    if position < s.board.length then
      .ok { board := s.board.set position none,
            allowed_moves := pySort l2,
            moves := s.moves - 1 }
    else .error .indexError

/-- A position is legal on a 27-cell board exactly when it is in range, its
cell is empty, and (gravity) it is on the ground layer or the cell directly
below it is occupied. -/
def legal (bd : List (Option Player)) (q : Nat) : Bool :=
  decide (q < 27) && (cellAt bd q).isNone && (decide (q < 9) || (cellAt bd (q - 9)).isSome)

/-- The legal positions of a board, in increasing order. -/
def legalMoves (bd : List (Option Player)) : List Nat :=
  (List.range 27).filter (legal bd)

/-- Occupancy is downward closed: a cell of layer 2 or 3 is only occupied when
the cell directly below it is. -/
def gravClosed (bd : List (Option Player)) : Prop :=
  ∀ i, i < 18 → (cellAt bd (i + 9)).isSome = true → (cellAt bd i).isSome = true

instance (bd : List (Option Player)) : Decidable (gravClosed bd) :=
  Nat.decidableBallLT 18 (fun i _ => (cellAt bd (i + 9)).isSome = true → (cellAt bd i).isSome = true)

/-- The state invariant of the engine: 27 cells, `allowed_moves` is exactly the
sorted list of legal positions, and occupancy is downward closed. -/
structure Inv (s : Board) : Prop where
  len : s.board.length = 27
  allowed : s.allowed_moves = legalMoves s.board
  grav : gravClosed s.board

/-- Board states reachable from `init` by `move` and `undo_move`, each applied
with its precondition met.  A `move` requires its position to be allowed; an
`undo_move` requires its position to be occupied by a player mark.  Either
transition only produces a state when the call returns normally: an operation
that raises terminates the (handler-free) engine and yields no state. -/
inductive Reachable : Board → Prop where
  | init : Reachable Board.init
  | move {s s' : Board} {p : Nat} {pl : Player} (h : Reachable s)
      (hp : p ∈ s.allowed_moves) (heq : s.move p pl = .ok s') : Reachable s'
  | undo {s s' : Board} {p : Nat} {pl : Player} (h : Reachable s)
      (hp : cellAt s.board p = some pl) (heq : s.undo_move p = .ok s') : Reachable s'

end Board

/-- Source `AIPlayer.enemy`: `PLAYER_2` when the piece is `PLAYER_1`, else
`PLAYER_1`. -/
def enemy (piece : Player) : Player :=
  if piece = Player.X then Player.O else Player.X

/-- The mutable bookkeeping of an `AIPlayer` sharing the `Board` by reference:
the board itself plus the counters `depth_count`, `nodes_examined` and
`total_nodes_examined`.  The fixed attributes (`piece` and the ply limit
`difficulty`) are passed as parameters. -/
structure SearchState : Type where
  bd : Board
  depth_count : Nat
  nodes_examined : Nat
  total_nodes_examined : Nat
deriving DecidableEq, Repr

/-- Source `AIPlayer.simple_heuristic`:
`check_available(piece, enemy) - check_available(enemy, piece)`. -/
def simple_heuristic (bd : Board) (piece : Player) : Int :=
  (bd.check_available piece (enemy piece) : Int)
    - (bd.check_available (enemy piece) piece : Int)

/-!
Source `AIPlayer.think_ahead`, the recursive minimax with alpha-beta pruning.
`think_ahead` is the function entry (the `nodes_examined` increment, the
ply cutoff returning the heuristic, and the `depth_count` increment);
`ta_max` and `ta_min` are its two `for move in self.board.allowed_moves`
loops (the maximising branch taken when `player == self.piece` and the
minimising one otherwise).  CPython iterates such a loop by index over the
live list, so the loops take the index `k` and re-read
`allowed_moves[k]` from the current board at each step, which is exactly the
source behaviour.  The extra `fuel` argument only bounds the recursion depth
so that the function is total: `none` means the computation was cut off (or a
board operation raised, which terminates the handler-free engine), and every
theorem about a returned value is conditional on a `some` result.  The dead
initialisations `h = LOSE` / `h = WIN` of the source (overwritten before any
read) have no counterpart.
-/

mutual

def think_ahead (piece : Player) (difficulty : Nat) :
    Nat → Player → Int → Int → Nat → SearchState → Option ((Int × Nat) × SearchState)
  | 0, _, _, _, _, _ => none
  | fuel + 1, player, a, b, h_depth, st =>
    let st1 : SearchState := { st with nodes_examined := st.nodes_examined + 1 }
    if st1.depth_count ≥ difficulty then
      some ((simple_heuristic st1.bd piece, st1.depth_count), st1)
    else
      let st2 : SearchState := { st1 with depth_count := st1.depth_count + 1 }
      if player = piece then
        ta_max piece difficulty fuel player a b h_depth 0 st2
      else
        ta_min piece difficulty fuel player a b h_depth 0 st2
termination_by structural fuel _ _ _ _ _ => fuel

def ta_max (piece : Player) (difficulty : Nat) :
    Nat → Player → Int → Int → Nat → Nat → SearchState → Option ((Int × Nat) × SearchState)
  | 0, _, _, _, _, _, _ => none
  | fuel + 1, player, a, b, h_depth, k, st =>
    match st.bd.allowed_moves[k]? with
    | none => some ((a, h_depth), { st with depth_count := st.depth_count - 1 })
    | some m =>
      match (st.bd.move m player).toOption with
      | none => none
      | some bd2 =>
        if Board.complete bd2 then
          match (bd2.undo_move m).toOption with
          | none => none
          | some bd3 =>
            let st3 : SearchState := { st with bd := bd3, depth_count := st.depth_count - 1 }
            if bd2.winner = some player then
              some ((WIN, st3.depth_count + 1), st3)
            else
              some ((TIE, st3.depth_count + 1), st3)
        else
          match think_ahead piece difficulty fuel (enemy piece) a b h_depth { st with bd := bd2 } with
          | none => none
          | some ((h, depth), st4) =>
            let a2 : Int := if h > a then h else a
            let hd2 : Nat := if h > a then depth else h_depth
            match (st4.bd.undo_move m).toOption with
            | none => none
            | some bd5 =>
              let st5 : SearchState := { st4 with bd := bd5 }
              if a2 ≥ b then
                some ((a2, hd2), { st5 with depth_count := st5.depth_count - 1 })
              else
                ta_max piece difficulty fuel player a2 b hd2 (k + 1) st5
termination_by structural fuel _ _ _ _ _ _ => fuel

def ta_min (piece : Player) (difficulty : Nat) :
    Nat → Player → Int → Int → Nat → Nat → SearchState → Option ((Int × Nat) × SearchState)
  | 0, _, _, _, _, _, _ => none
  | fuel + 1, player, a, b, h_depth, k, st =>
    match st.bd.allowed_moves[k]? with
    | none => some ((b, h_depth), { st with depth_count := st.depth_count - 1 })
    | some m =>
      match (st.bd.move m player).toOption with
      | none => none
      | some bd2 =>
        if Board.complete bd2 then
          match (bd2.undo_move m).toOption with
          | none => none
          | some bd3 =>
            let st3 : SearchState := { st with bd := bd3, depth_count := st.depth_count - 1 }
            if bd2.winner = some player then
              some ((LOSE, st3.depth_count + 1), st3)
            else
              some ((TIE, st3.depth_count + 1), st3)
        else
          match think_ahead piece difficulty fuel piece a b h_depth { st with bd := bd2 } with
          | none => none
          | some ((h, depth), st4) =>
            let b2 : Int := if h < b then h else b
            let hd2 : Nat := if h < b then depth else h_depth
            match (st4.bd.undo_move m).toOption with
            | none => none
            | some bd5 =>
              let st5 : SearchState := { st4 with bd := bd5 }
              if a ≥ b2 then
                some ((b2, hd2), { st5 with depth_count := st5.depth_count - 1 })
              else
                ta_min piece difficulty fuel player a b2 hd2 (k + 1) st5
termination_by structural fuel _ _ _ _ _ _ => fuel

end

/-- The running best of `AIPlayer.do_turn`'s full-search phase:
`best_score`, `best_depth`, `best_move`. -/
structure SearchAcc : Type where
  best_score : Int
  best_depth : Nat
  best_move : Option Nat
deriving DecidableEq, Repr

/-- The `# Find optimal move` loop of `AIPlayer.do_turn`: play each allowed
move, call `think_ahead(self.enemy, 2*LOSE, WIN, 0)`, accumulate
`total_nodes_examined` and reset the per-move counters, replace the best
candidate exactly when the new score is strictly higher or ties a
`best_score` equal to `LOSE` with a strictly greater depth, undo, and break
out of the scan as soon as `best_score == WIN`. -/
def find_optimal (piece : Player) (difficulty : Nat) :
    Nat → Nat → SearchAcc → SearchState → Option (SearchAcc × SearchState)
  | 0, _, _, _ => none
  | fuel + 1, k, acc, st =>
    match st.bd.allowed_moves[k]? with
    | none => some (acc, st)
    | some m =>
      match (st.bd.move m piece).toOption with
      | none => none
      | some bd2 =>
        match think_ahead piece difficulty fuel (enemy piece) (2 * LOSE) WIN 0 { st with bd := bd2 } with
        | none => none
        | some ((h, depth), st4) =>
          let st5 : SearchState :=
            { bd := st4.bd, depth_count := 0, nodes_examined := 0,
              total_nodes_examined := st4.total_nodes_examined + st4.nodes_examined }
          let acc2 : SearchAcc :=
            if h > acc.best_score ∨ (h = acc.best_score ∧ acc.best_score = LOSE ∧ depth > acc.best_depth)
            then { best_score := h, best_depth := depth, best_move := some m }
            else acc
          match (st5.bd.undo_move m).toOption with
          | none => none
          | some bd6 =>
            let st6 : SearchState := { st5 with bd := bd6 }
            if acc2.best_score = WIN then some (acc2, st6)
            else find_optimal piece difficulty fuel (k + 1) acc2 st6

/-- Outcome of the immediate-win / immediate-block scans of `do_turn`:
either the scan returned from `do_turn` with a final state, or it fell
through with the (restored) state. -/
inductive TurnStep : Type where
  | done (st : SearchState) : TurnStep
  | cont (st : SearchState) : TurnStep
deriving DecidableEq, Repr

/-- The `# check if we can win` loop of `do_turn`: tentatively play each
allowed move as self; on `complete` return leaving the move played, else
undo and continue. -/
def can_win (piece : Player) : Nat → Nat → SearchState → Option TurnStep
  | 0, _, _ => none
  | fuel + 1, k, st =>
    match st.bd.allowed_moves[k]? with
    | none => some (.cont st)
    | some m =>
      match (st.bd.move m piece).toOption with
      | none => none
      | some bd2 =>
        if Board.complete bd2 then some (.done { st with bd := bd2 })
        else
          match (bd2.undo_move m).toOption with
          | none => none
          | some bd3 => can_win piece fuel (k + 1) { st with bd := bd3 }

/-- The `# check if we can block` loop of `do_turn`: tentatively play each
allowed move as the enemy; when this completes the game with the enemy
winning, undo it, play the same move as self and return; else undo and
continue. -/
def can_block (piece : Player) : Nat → Nat → SearchState → Option TurnStep
  | 0, _, _ => none
  | fuel + 1, k, st =>
    match st.bd.allowed_moves[k]? with
    | none => some (.cont st)
    | some m =>
      match (st.bd.move m (enemy piece)).toOption with
      | none => none
      | some bd2 =>
        if Board.complete bd2 ∧ bd2.winner = some (enemy piece) then
          match (bd2.undo_move m).toOption with
          | none => none
          | some bd3 =>
            match (bd3.move m piece).toOption with
            | none => none
            | some bd4 => some (.done { st with bd := bd4 })
        else
          match (bd2.undo_move m).toOption with
          | none => none
          | some bd3 => can_block piece fuel (k + 1) { st with bd := bd3 }

/-- Source `AIPlayer.do_turn`: the immediate-win scan, the immediate-block
scan, the full search with `best_score` initialised to `2*LOSE`, and finally
`board.move(best_move, piece)` (`best_move = None` raises in Python, hence
`none`). -/
def do_turn (piece : Player) (difficulty : Nat) (fuel : Nat) (st : SearchState) :
    Option SearchState :=
  match can_win piece fuel 0 st with
  | none => none
  | some (.done st2) => some st2
  | some (.cont st1) =>
    match can_block piece fuel 0 st1 with
    | none => none
    | some (.done st2) => some st2
    | some (.cont st2) =>
      match find_optimal piece difficulty fuel 0
          { best_score := 2 * LOSE, best_depth := 0, best_move := none } st2 with
      | none => none
      | some (acc, st3) =>
        match acc.best_move with
        | none => none
        | some bm =>
          match (st3.bd.move bm piece).toOption with
          | none => none
          | some bd4 => some { st3 with bd := bd4 }

/-- Fold a list of `(position, mark)` pairs through `Board.move`, insisting on
the `move` precondition at each step; used to build concrete reachable
states. -/
def playSeq : Board → List (Nat × Player) → Option Board
  | s, [] => some s
  | s, (p, pl) :: rest =>
    if p ∈ s.allowed_moves then
      match s.move p pl with
      | .ok s2 => playSeq s2 rest
      | .error _ => none
    else none

/-- The state after `move(0, 'X')` from the initial board. -/
def board1 : Board :=
  { board := (List.replicate 27 (none : Option Player)).set 0 (some Player.X),
    allowed_moves := [1, 2, 3, 4, 5, 6, 7, 8, 9],
    moves := 1 }

/-- The state after `move(0, 'X')` then `move(9, 'O')`: positions 0 and 9 of
the same column are both occupied. -/
def board2 : Board :=
  { board := ((List.replicate 27 (none : Option Player)).set 0 (some Player.X)).set 9
      (some Player.O),
    allowed_moves := [1, 2, 3, 4, 5, 6, 7, 8, 18],
    moves := 2 }

/-- A board on which both players own a complete winning line simultaneously:
X fills the line `[0, 1, 2]`, O fills `[3, 4, 5]`. -/
def doubleWinBoard : Board :=
  { board := [some Player.X, some Player.X, some Player.X,
              some Player.O, some Player.O, some Player.O] ++
             List.replicate 21 (none : Option Player),
    allowed_moves := [6, 7, 8],
    moves := 6 }

deriving instance DecidableEq for Except

/-- Two search results agree on everything except the diagnostic node
counters: same `(score, depth)` value, same board, same recursion depth. -/
def SameSearch : Option ((Int × Nat) × SearchState) → Option ((Int × Nat) × SearchState) → Prop
  | none, none => True
  | some (v, st), some (v2, st2) => v = v2 ∧ st.bd = st2.bd ∧ st.depth_count = st2.depth_count
  | _, _ => False

/-- Modelled from the specification's wording (for comparison with the code's
`complete`): a winning line is still achievable for a player when every cell
in it is either in the current legal-move set or already occupied by that
player. -/
def specAchievable (s : Board) (pl : Player) (combo : List Nat) : Prop :=
  ∀ pos ∈ combo, pos ∈ s.allowed_moves ∨ Board.cellAt s.board pos = some pl

/-- A 20-move game (bottom-up, so every move is legal under gravity) whose
final position is a stalemate tie with seven cells still empty. -/
def tieMoves : List (Nat × Player) :=
  [(0, Player.O), (1, Player.O), (2, Player.X), (3, Player.X), (5, Player.O),
   (6, Player.O), (7, Player.X), (8, Player.X),
   (9, Player.X), (10, Player.O), (12, Player.O), (14, Player.X),
   (16, Player.X), (17, Player.O),
   (18, Player.X), (19, Player.X), (21, Player.O), (23, Player.O),
   (25, Player.O), (26, Player.O)]

/-- The position reached by `tieMoves`: cells 4, 11, 13, 15, 20, 22, 24 are
empty, the legal moves are `[4, 11, 15]`, and no winning line is achievable
for either player (the unsupported empty cells 13, 20, 22, 24 block every
line through them for both players). -/
def tieBoard : Board :=
  { board := [some Player.O, some Player.O, some Player.X,
              some Player.X, none, some Player.O,
              some Player.O, some Player.X, some Player.X,
              some Player.X, some Player.O, none,
              some Player.O, none, some Player.X,
              none, some Player.X, some Player.O,
              some Player.X, some Player.X, none,
              some Player.O, none, some Player.O,
              none, some Player.O, some Player.O],
    allowed_moves := [4, 11, 15],
    moves := 20 }

/-- A four-move opening after which X completes the line `[0, 1, 2]` by
playing position 2. -/
def nearWinMoves : List (Nat × Player) :=
  [(0, Player.X), (9, Player.O), (1, Player.X), (10, Player.O)]

/-- The position reached by `nearWinMoves`: X on 0 and 1, O on 9 and 10. -/
def nearWinBoard : Board :=
  { board := [some Player.X, some Player.X, none, none, none, none, none, none, none,
              some Player.O, some Player.O, none, none, none, none, none, none, none,
              none, none, none, none, none, none, none, none, none],
    allowed_moves := [2, 3, 4, 5, 6, 7, 8, 18, 19],
    moves := 4 }

namespace Board

theorem listRemove_spec (l : List Nat) (x : Nat) :
    listRemove l x = if x ∈ l then some (l.erase x) else none := by
  induction l with
  | nil => simp [listRemove]
  | cons a rest ih =>
    by_cases hax : a = x
    · subst hax
      simp [listRemove, List.erase_cons_head]
    · have hbeq : (a == x) = false := by simp [hax]
      have hxa : ¬x = a := fun h => hax h.symm
      simp only [listRemove, if_neg hax, ih, List.erase_cons, hbeq, List.mem_cons]
      by_cases hx : x ∈ rest
      · simp [hx, hxa]
      · simp [hx, hxa]

theorem pySort_perm (l : List Nat) : List.Perm (pySort l) l :=
  List.perm_insertionSort _ l

theorem pySort_sorted (l : List Nat) : (pySort l).Sorted (· ≤ ·) :=
  List.sorted_insertionSort _ l

theorem mem_pySort {l : List Nat} {x : Nat} : x ∈ pySort l ↔ x ∈ l :=
  (pySort_perm l).mem_iff

theorem pySort_length (l : List Nat) : (pySort l).length = l.length :=
  (pySort_perm l).length_eq

theorem pySort_eq_of_perm {l m : List Nat} (hperm : List.Perm l m)
    (hm : m.Sorted (· ≤ ·)) : pySort l = m :=
  List.eq_of_perm_of_sorted ((pySort_perm l).trans hperm) (pySort_sorted l) hm

theorem legalMoves_sorted (bd : List (Option Player)) :
    (legalMoves bd).Sorted (· ≤ ·) :=
  (((List.pairwise_lt_range 27).filter (legal bd)).imp le_of_lt : _)

theorem legalMoves_nodup (bd : List (Option Player)) : (legalMoves bd).Nodup :=
  (List.nodup_range 27).filter (legal bd)

theorem legal_spec {bd : List (Option Player)} {q : Nat} :
    legal bd q = true ↔
      q < 27 ∧ cellAt bd q = none ∧ (q < 9 ∨ (cellAt bd (q - 9)).isSome = true) := by
  simp [legal, Bool.and_eq_true, Bool.or_eq_true, Option.isNone_iff_eq_none, and_assoc]

theorem mem_legalMoves {bd : List (Option Player)} {q : Nat} :
    q ∈ legalMoves bd ↔ legal bd q = true := by
  constructor
  · intro h
    exact (List.mem_filter.mp h).2
  · intro h
    exact List.mem_filter.mpr ⟨List.mem_range.mpr (legal_spec.mp h).1, h⟩

theorem cellAt_eq_getElem? {bd : List (Option Player)} {q : Nat} :
    cellAt bd q = (bd[q]?).getD none := by
  simp [cellAt, List.getD]

theorem cellAt_set_ne {bd : List (Option Player)} {p q : Nat} (v : Option Player)
    (h : q ≠ p) : cellAt (bd.set p v) q = cellAt bd q := by
  rw [cellAt_eq_getElem?, cellAt_eq_getElem?, List.getElem?_set_ne (Ne.symm h)]

theorem cellAt_set_self {bd : List (Option Player)} {p : Nat} (v : Option Player)
    (h : p < bd.length) : cellAt (bd.set p v) p = v := by
  rw [cellAt_eq_getElem?]
  simp [List.getElem?_set_self, h]

theorem lt_length_of_cellAt_some {bd : List (Option Player)} {p : Nat} {x : Player}
    (h : cellAt bd p = some x) : p < bd.length := by
  by_contra hge
  push_neg at hge
  rw [cellAt_eq_getElem?, List.getElem?_eq_none hge] at h
  simp at h

theorem legal_set_ne {bd : List (Option Player)} {p q : Nat} (v : Option Player)
    (h : q ≠ p) (h9 : q ≠ p + 9) : legal (bd.set p v) q = legal bd q := by
  unfold legal
  rw [cellAt_set_ne v h]
  by_cases hq9 : q < 9
  · simp [hq9]
  · have hsub : q - 9 ≠ p := by omega
    rw [cellAt_set_ne v hsub]

theorem legal_above_false {bd : List (Option Player)} {p : Nat}
    (h : cellAt bd p = none) : legal bd (p + 9) = false := by
  have h9 : ¬(p + 9 < 9) := by omega
  have hsub : p + 9 - 9 = p := by omega
  simp [legal, h9, hsub, h]

theorem legal_occupied_false {bd : List (Option Player)} {p : Nat} {pl : Player}
    (h : cellAt bd p = some pl) : legal bd p = false := by
  simp [legal, h]

theorem set_cell_none_eq_self {bd : List (Option Player)} {p : Nat}
    (h : cellAt bd p = none) : bd.set p none = bd := by
  induction bd generalizing p with
  | nil => rfl
  | cons c rest ih =>
    cases p with
    | zero =>
      simp only [cellAt, List.getD_cons_zero] at h
      simp [h]
    | succ q =>
      simp only [cellAt, List.getD_cons_succ] at h
      simp [List.set, ih h]

end Board

namespace Board

theorem above_none_of_legal {bd : List (Option Player)} {p : Nat}
    (hgrav : gravClosed bd) (hp18 : p < 18) (hnone : cellAt bd p = none) :
    cellAt bd (p + 9) = none := by
  cases habove : cellAt bd (p + 9) with
  | none => rfl
  | some y =>
    have := hgrav p hp18 (by simp [habove])
    rw [hnone] at this
    simp at this

theorem legalMoves_after_mark {bd : List (Option Player)} {p : Nat} (pl : Player)
    (hlen : bd.length = 27) (hgrav : gravClosed bd) (hlegal : legal bd p = true) :
    List.Perm ((legalMoves bd).erase p ++ (if p < 18 then [p + 9] else []))
      (legalMoves (bd.set p (some pl))) := by
  obtain ⟨hp27, hpnone, hpgrav⟩ := legal_spec.mp hlegal
  have hplen : p < bd.length := by omega
  have hnl9 : p + 9 ∉ legalMoves bd := by
    rw [mem_legalMoves, legal_above_false hpnone]
    simp
  have hnodupL : ((legalMoves bd).erase p ++ (if p < 18 then [p + 9] else [])).Nodup := by
    by_cases hp18 : p < 18
    · simp only [if_pos hp18]
      rw [List.nodup_append]
      refine ⟨(legalMoves_nodup bd).erase p, List.nodup_singleton _, ?_⟩
      intro a ha hb
      rw [List.mem_singleton] at hb
      subst hb
      exact hnl9 (List.mem_of_mem_erase ha)
    · simp only [if_neg hp18, List.append_nil]
      exact (legalMoves_nodup bd).erase p
  rw [List.perm_ext_iff_of_nodup hnodupL (legalMoves_nodup _)]
  intro q
  rw [List.mem_append, (legalMoves_nodup bd).mem_erase_iff, mem_legalMoves, mem_legalMoves]
  by_cases hqp : q = p
  · subst hqp
    have : legal (bd.set q (some pl)) q = false := by
      apply legal_occupied_false
      exact cellAt_set_self (some pl) hplen
    rw [this]
    have hq9 : q ∉ (if q < 18 then [q + 9] else []) := by
      by_cases h18 : q < 18 <;> simp [h18]
    simp [hq9]
  · by_cases hq9 : q = p + 9
    · subst hq9
      by_cases hp18 : p < 18
      · have habove : cellAt bd (p + 9) = none := above_none_of_legal hgrav hp18 hpnone
        have : legal (bd.set p (some pl)) (p + 9) = true := by
          rw [legal_spec]
          refine ⟨by omega, ?_, Or.inr ?_⟩
          · rw [cellAt_set_ne (some pl) (by omega)]
            exact habove
          · have hsub : p + 9 - 9 = p := by omega
            rw [hsub, cellAt_set_self (some pl) hplen]
            rfl
        simp [this, hp18, legal_above_false hpnone]
      · have h27 : ¬(p + 9 < 27) := by omega
        have hl1 : legal bd (p + 9) = false := by
          rw [legal, decide_eq_false h27]
          simp
        have hl2 : legal (bd.set p (some pl)) (p + 9) = false := by
          rw [legal, decide_eq_false h27]
          simp
        simp [hp18, hl1, hl2, hqp]
    · rw [legal_set_ne (some pl) hqp hq9]
      have hnotin : q ∉ (if p < 18 then [p + 9] else []) := by
        by_cases h18 : p < 18 <;> simp [h18, hq9]
      simp [hqp, hnotin]

theorem gravClosed_set_mark {bd : List (Option Player)} {p : Nat} (pl : Player)
    (hlen : bd.length = 27) (hgrav : gravClosed bd) (hlegal : legal bd p = true) :
    gravClosed (bd.set p (some pl)) := by
  obtain ⟨hp27, hpnone, hpgrav⟩ := legal_spec.mp hlegal
  have hplen : p < bd.length := by omega
  intro i hi hsome
  by_cases hip : i = p
  · subst hip
    rw [cellAt_set_self (some pl) hplen]
    rfl
  · by_cases hip9 : i + 9 = p
    · rw [cellAt_set_ne (some pl) hip]
      rcases hpgrav with h9 | hbelow
      · omega
      · have hsub : p - 9 = i := by omega
        rw [hsub] at hbelow
        exact hbelow
    · rw [cellAt_set_ne (some pl) hip9] at hsome
      rw [cellAt_set_ne (some pl) hip]
      exact hgrav i hi hsome

end Board

namespace Board

theorem move_eq {s : Board} {p : Nat} (pl : Player) (hInv : Inv s)
    (hp : p ∈ s.allowed_moves) :
    s.move p pl = .ok { board := s.board.set p (some pl),
                        allowed_moves := legalMoves (s.board.set p (some pl)),
                        moves := s.moves + 1 } := by
  have hlegal : legal s.board p = true := mem_legalMoves.mp (hInv.allowed ▸ hp)
  obtain ⟨hp27, hpnone, hpgrav⟩ := legal_spec.mp hlegal
  have hplen : p < s.board.length := by rw [hInv.len]; exact hp27
  have hrem : listRemove s.allowed_moves p = some (s.allowed_moves.erase p) := by
    rw [listRemove_spec, if_pos hp]
  have hperm := legalMoves_after_mark pl hInv.len hInv.grav hlegal
  have hsort : pySort (if p < 18 then s.allowed_moves.erase p ++ [p + 9]
        else s.allowed_moves.erase p) = legalMoves (s.board.set p (some pl)) := by
    by_cases hp18 : p < 18
    · rw [if_pos hp18, hInv.allowed]
      apply pySort_eq_of_perm _ (legalMoves_sorted _)
      rw [if_pos hp18] at hperm
      exact hperm
    · rw [if_neg hp18, hInv.allowed]
      apply pySort_eq_of_perm _ (legalMoves_sorted _)
      rw [if_neg hp18, List.append_nil] at hperm
      exact hperm
  simp only [move, hrem, if_pos hplen, hsort]

theorem legal_below_of_occupied {bd : List (Option Player)} {p : Nat} {pl : Player}
    (hlen : bd.length = 27) (hgrav : gravClosed bd) (hocc : cellAt bd p = some pl) :
    p < 9 ∨ (cellAt bd (p - 9)).isSome = true := by
  by_cases h9 : p < 9
  · exact Or.inl h9
  · refine Or.inr ?_
    have hsub : p - 9 + 9 = p := by omega
    have hplen : p < bd.length := lt_length_of_cellAt_some hocc
    exact hgrav (p - 9) (by omega) (by rw [hsub, hocc]; rfl)

theorem legal_above_of_occupied {bd : List (Option Player)} {p : Nat} {pl : Player}
    (hp18 : p < 18) (hocc : cellAt bd p = some pl)
    (habove : cellAt bd (p + 9) = none) : legal bd (p + 9) = true := by
  rw [legal_spec]
  refine ⟨by omega, habove, Or.inr ?_⟩
  have hsub : p + 9 - 9 = p := by omega
  rw [hsub, hocc]
  rfl

theorem legalMoves_after_unmark {bd : List (Option Player)} {p : Nat} {pl : Player}
    (hlen : bd.length = 27) (hgrav : gravClosed bd)
    (hocc : cellAt bd p = some pl) (habove : p < 18 → cellAt bd (p + 9) = none) :
    List.Perm (if p < 18 then (legalMoves bd ++ [p]).erase (p + 9) else legalMoves bd ++ [p])
      (legalMoves (bd.set p none)) := by
  have hplen : p < bd.length := lt_length_of_cellAt_some hocc
  have hp27 : p < 27 := by omega
  have hpnotin : p ∉ legalMoves bd := by
    rw [mem_legalMoves, legal_occupied_false hocc]
    simp
  have hnodupL : (if p < 18 then (legalMoves bd ++ [p]).erase (p + 9)
      else legalMoves bd ++ [p]).Nodup := by
    have happ : (legalMoves bd ++ [p]).Nodup := by
      rw [List.nodup_append]
      refine ⟨legalMoves_nodup bd, List.nodup_singleton _, ?_⟩
      intro a ha hb
      rw [List.mem_singleton] at hb
      subst hb
      exact hpnotin ha
    by_cases hp18 : p < 18
    · rw [if_pos hp18]
      exact happ.erase _
    · rw [if_neg hp18]
      exact happ
  rw [List.perm_ext_iff_of_nodup hnodupL (legalMoves_nodup _)]
  intro q
  have hmemL : q ∈ (if p < 18 then (legalMoves bd ++ [p]).erase (p + 9)
      else legalMoves bd ++ [p]) ↔ (q ≠ p + 9 ∨ ¬p < 18) ∧ (q ∈ legalMoves bd ∨ q = p) := by
    have happ : (legalMoves bd ++ [p]).Nodup := by
      rw [List.nodup_append]
      refine ⟨legalMoves_nodup bd, List.nodup_singleton _, ?_⟩
      intro a ha hb
      rw [List.mem_singleton] at hb
      subst hb
      exact hpnotin ha
    by_cases hp18 : p < 18
    · rw [if_pos hp18, happ.mem_erase_iff, List.mem_append, List.mem_singleton]
      tauto
    · rw [if_neg hp18, List.mem_append, List.mem_singleton]
      tauto
  rw [hmemL, mem_legalMoves, mem_legalMoves]
  by_cases hqp : q = p
  · subst hqp
    have hq9 : q ≠ q + 9 := by omega
    have : legal (bd.set q none) q = true := by
      rw [legal_spec]
      refine ⟨hp27, cellAt_set_self none hplen, ?_⟩
      by_cases h9 : q < 9
      · exact Or.inl h9
      · refine Or.inr ?_
        rw [cellAt_set_ne none (by omega)]
        have hsub : q - 9 + 9 = q := by omega
        exact hgrav (q - 9) (by omega) (by rw [hsub, hocc]; rfl)
    simp [this, hq9]
  · by_cases hq9 : q = p + 9
    · subst hq9
      by_cases hp18 : p < 18
      · have h1 : legal (bd.set p none) (p + 9) = false := by
          have h9 : ¬(p + 9 < 9) := by omega
          have hsub : p + 9 - 9 = p := by omega
          simp [legal, h9, hsub, cellAt_set_self none hplen]
        simp [h1, hp18]
      · have h27 : ¬(p + 9 < 27) := by omega
        have h1 : legal bd (p + 9) = false := by
          rw [legal, decide_eq_false h27]
          simp
        have h2 : legal (bd.set p none) (p + 9) = false := by
          rw [legal, decide_eq_false h27]
          simp
        simp [h1, h2, hp18, hqp]
    · rw [legal_set_ne none hqp hq9]
      simp [hqp, hq9]

theorem gravClosed_set_none {bd : List (Option Player)} {p : Nat}
    (hgrav : gravClosed bd) (habove : p < 18 → cellAt bd (p + 9) = none)
    (hplen : p < bd.length) : gravClosed (bd.set p none) := by
  intro i hi hsome
  by_cases hip : i = p
  · subst hip
    rw [cellAt_set_ne none (by omega), habove hi] at hsome
    simp at hsome
  · by_cases hip9 : i + 9 = p
    · rw [hip9, cellAt_set_self none hplen] at hsome
      simp at hsome
    · rw [cellAt_set_ne none hip9] at hsome
      rw [cellAt_set_ne none hip]
      exact hgrav i hi hsome

theorem undo_eq {s : Board} {p : Nat} {pl : Player} (hInv : Inv s)
    (hocc : cellAt s.board p = some pl)
    (habove : p < 18 → cellAt s.board (p + 9) = none) :
    s.undo_move p = .ok { board := s.board.set p none,
                          allowed_moves := legalMoves (s.board.set p none),
                          moves := s.moves - 1 } := by
  have hplen : p < s.board.length := lt_length_of_cellAt_some hocc
  have hperm := legalMoves_after_unmark hInv.len hInv.grav hocc habove
  by_cases hp18 : p < 18
  · have hmem : p + 9 ∈ s.allowed_moves ++ [p] := by
      rw [List.mem_append]
      left
      rw [hInv.allowed, mem_legalMoves]
      exact legal_above_of_occupied hp18 hocc (habove hp18)
    have hrem : listRemove (s.allowed_moves ++ [p]) (p + 9)
        = some ((s.allowed_moves ++ [p]).erase (p + 9)) := by
      rw [listRemove_spec, if_pos hmem]
    have hsort : pySort ((s.allowed_moves ++ [p]).erase (p + 9))
        = legalMoves (s.board.set p none) := by
      apply pySort_eq_of_perm _ (legalMoves_sorted _)
      rw [if_pos hp18] at hperm
      rw [hInv.allowed]
      exact hperm
    simp only [undo_move, if_pos hp18, hrem, if_pos hplen, hsort]
  · have hsort : pySort (s.allowed_moves ++ [p]) = legalMoves (s.board.set p none) := by
      apply pySort_eq_of_perm _ (legalMoves_sorted _)
      rw [if_neg hp18] at hperm
      rw [hInv.allowed]
      exact hperm
    simp only [undo_move, if_neg hp18, if_pos hplen, hsort]

theorem undo_fail {s : Board} {p : Nat} {pl : Player} (hInv : Inv s) (hp18 : p < 18)
    (_hocc : cellAt s.board p = some pl)
    (habove : (cellAt s.board (p + 9)).isSome = true) :
    s.undo_move p = .error .valueError := by
  have hnot : p + 9 ∉ s.allowed_moves ++ [p] := by
    rw [List.mem_append, List.mem_singleton]
    rintro (h | h)
    · rw [hInv.allowed, mem_legalMoves, legal_spec] at h
      obtain ⟨-, hnone, -⟩ := h
      rw [hnone] at habove
      simp at habove
    · omega
  have hrem : listRemove (s.allowed_moves ++ [p]) (p + 9) = none := by
    rw [listRemove_spec, if_neg hnot]
  simp only [undo_move, if_pos hp18, hrem]

theorem move_inv {s : Board} {p : Nat} (pl : Player) (hInv : Inv s)
    (hp : p ∈ s.allowed_moves) :
    Inv { board := s.board.set p (some pl),
          allowed_moves := legalMoves (s.board.set p (some pl)),
          moves := s.moves + 1 } := by
  have hlegal : legal s.board p = true := mem_legalMoves.mp (hInv.allowed ▸ hp)
  exact ⟨by simp [hInv.len], rfl, gravClosed_set_mark pl hInv.len hInv.grav hlegal⟩

theorem undo_inv {s : Board} {p : Nat} {pl : Player} (hInv : Inv s)
    (hocc : cellAt s.board p = some pl)
    (habove : p < 18 → cellAt s.board (p + 9) = none) :
    Inv { board := s.board.set p none,
          allowed_moves := legalMoves (s.board.set p none),
          moves := s.moves - 1 } :=
  ⟨by simp [hInv.len], rfl,
   gravClosed_set_none hInv.grav habove (lt_length_of_cellAt_some hocc)⟩

theorem move_roundtrip {s : Board} {p : Nat} (pl : Player) (hInv : Inv s)
    (hp : p ∈ s.allowed_moves) :
    ∃ s', s.move p pl = .ok s' ∧ Inv s' ∧ s'.undo_move p = .ok s := by
  have hlegal : legal s.board p = true := mem_legalMoves.mp (hInv.allowed ▸ hp)
  obtain ⟨hp27, hpnone, hpgrav⟩ := legal_spec.mp hlegal
  have hplen : p < s.board.length := by rw [hInv.len]; exact hp27
  refine ⟨_, move_eq pl hInv hp, move_inv pl hInv hp, ?_⟩
  have hocc2 : cellAt (s.board.set p (some pl)) p = some pl := cellAt_set_self _ hplen
  have habove2 : p < 18 → cellAt (s.board.set p (some pl)) (p + 9) = none := by
    intro h18
    rw [cellAt_set_ne (some pl) (by omega)]
    exact above_none_of_legal hInv.grav h18 hpnone
  rw [undo_eq (move_inv pl hInv hp) hocc2 habove2]
  have hbd : (s.board.set p (some pl)).set p none = s.board := by
    rw [List.set_set]
    exact set_cell_none_eq_self hpnone
  simp only [hbd, ← hInv.allowed]
  have hmv : s.moves + 1 - 1 = s.moves := by ring
  rw [hmv]

theorem inv_init : Inv Board.init := ⟨by decide, by decide, by decide⟩

theorem inv_of_reachable {s : Board} (h : Reachable s) : Inv s := by
  induction h with
  | init => exact inv_init
  | @move s s' p pl h hp heq ih =>
    obtain ⟨t, hmv, hinvt, -⟩ := move_roundtrip pl ih hp
    rw [hmv] at heq
    injection heq with h2
    rw [← h2]
    exact hinvt
  | @undo s s' p pl h hp heq ih =>
    by_cases hp18 : p < 18
    · cases habove : cellAt s.board (p + 9) with
      | some y =>
        rw [undo_fail ih hp18 hp (by simp [habove])] at heq
        cases heq
      | none =>
        rw [undo_eq ih hp (fun _ => habove)] at heq
        injection heq with h2
        rw [← h2]
        exact undo_inv ih hp (fun _ => habove)
    · rw [undo_eq ih hp (fun h18 => absurd h18 hp18)] at heq
      injection heq with h2
      rw [← h2]
      exact undo_inv ih hp (fun h18 => absurd h18 hp18)

end Board

theorem mem_get_moves {s : Board} {pl : Player} {pos : Nat} :
    pos ∈ s.get_moves pl ↔ pos < 27 ∧ Board.cellAt s.board pos = some pl := by
  simp [Board.get_moves, List.mem_filter, List.mem_range]

theorem reachable_board1 : Board.Reachable board1 :=
  @Board.Reachable.move Board.init board1 0 Player.X Board.Reachable.init
    (by decide) (by decide)

theorem reachable_board2 : Board.Reachable board2 :=
  @Board.Reachable.move board1 board2 9 Player.O reachable_board1
    (by decide) (by decide)

/-- C1: Gravity invariant.  In every `Board` state reachable from the initial
board by `move` and `undo_move` (each applied with its precondition met), for
every index `i < 18`, index `i + 9` is in `allowed_moves` exactly when cell
`i` is occupied by a player mark and cell `i + 9` is not itself occupied. -/
theorem gravity_invariant {s : Board} (h : Board.Reachable s) :
    ∀ i, i < 18 → ((i + 9) ∈ s.allowed_moves ↔
      (∃ pl, Board.cellAt s.board i = some pl) ∧ Board.cellAt s.board (i + 9) = none) := by
  intro i hi
  have hInv := Board.inv_of_reachable h
  rw [hInv.allowed, Board.mem_legalMoves, Board.legal_spec]
  constructor
  · rintro ⟨h27, hnone, hgr⟩
    refine ⟨?_, hnone⟩
    rcases hgr with h9 | hsome
    · omega
    · rw [show i + 9 - 9 = i from by omega] at hsome
      exact Option.isSome_iff_exists.mp hsome
  · rintro ⟨⟨pl, hocc⟩, hnone9⟩
    refine ⟨by omega, hnone9, Or.inr ?_⟩
    rw [show i + 9 - 9 = i from by omega, hocc]
    rfl

theorem gravity_invariant_witness :
    Board.Reachable board1 ∧ (0 : Nat) < 18 ∧
      (9 ∈ board1.allowed_moves ↔
        (∃ pl, Board.cellAt board1.board 0 = some pl) ∧
          Board.cellAt board1.board 9 = none) :=
  ⟨reachable_board1, by decide, gravity_invariant reachable_board1 0 (by decide)⟩

/-- C2: Round trip.  For every reachable state, every position `p` in the
current legal-move set and every mark `x`, `move(p, x)` succeeds and
`undo_move(p)` right after restores the whole state — board contents, the
legal-move set with its order, and the move counter — exactly. -/
theorem move_undo_round_trip {s : Board} {p : Nat} (pl : Player)
    (h : Board.Reachable s) (hp : p ∈ s.allowed_moves) :
    ∃ s', s.move p pl = .ok s' ∧ s'.undo_move p = .ok s := by
  obtain ⟨s', hmv, -, hundo⟩ := Board.move_roundtrip pl (Board.inv_of_reachable h) hp
  exact ⟨s', hmv, hundo⟩

theorem move_undo_round_trip_witness :
    Board.Reachable Board.init ∧ 0 ∈ Board.init.allowed_moves ∧
      ∃ s', Board.init.move 0 Player.X = .ok s' ∧ s'.undo_move 0 = .ok Board.init :=
  ⟨Board.Reachable.init, by decide,
    move_undo_round_trip Player.X Board.Reachable.init (by decide)⟩

/-- C5 counterexample: a `move` into a non-allowed position fails with the
`ValueError` raised by `list.remove`, not with an exception of a class named
`IllegalMoveError` — the source defines no such class. -/
theorem move_rejects_with_valueError_not_illegalMoveError :
    20 ∉ Board.init.allowed_moves ∧
      Board.init.move 20 Player.X = .error PyExc.valueError ∧
      Board.init.move 20 Player.X ≠ .error PyExc.illegalMoveError := by
  decide

/-- C5 (amended): for every position not in the current legal-move set
(occupied or out of range) and every mark, `move(position, player)` fails —
with the `ValueError` raised by `list.remove`, there being no
`IllegalMoveError` class in the code. -/
theorem move_not_allowed_raises_valueError {s : Board} {p : Nat} (pl : Player)
    (hp : p ∉ s.allowed_moves) : s.move p pl = .error PyExc.valueError := by
  simp only [Board.move, Board.listRemove_spec, if_neg hp]

theorem move_not_allowed_raises_valueError_witness :
    27 ∉ Board.init.allowed_moves ∧
      Board.init.move 27 Player.O = .error PyExc.valueError :=
  ⟨by decide, move_not_allowed_raises_valueError Player.O (by decide)⟩

/-- C6 counterexample: on the initial (reachable) board, playing the allowed
position 0 leaves the legal-move set at its previous size 9 (position 0 is
removed but position 9 is unlocked), so a move does not strictly shrink the
legal-move set. -/
theorem move_allowed_count_not_strictly_decreasing :
    Board.Reachable Board.init ∧ 0 ∈ Board.init.allowed_moves ∧
      Board.init.move 0 Player.X = .ok board1 ∧
      board1.allowed_moves.length = Board.init.allowed_moves.length :=
  ⟨Board.Reachable.init, by decide, by decide, by decide⟩

/-- C6 (amended): a successful `move(p, player)` never grows the legal-move
set, but it strictly shrinks it only for `p ≥ 18`: for `p < 18` the removal of
`p` is exactly offset by the gravity unlock of `p + 9`, and the size is
unchanged. -/
theorem move_shrinks_allowed_iff_top_layer {s s' : Board} {p : Nat} (pl : Player)
    (heq : s.move p pl = .ok s') :
    s'.allowed_moves.length
      = if p < 18 then s.allowed_moves.length else s.allowed_moves.length - 1 := by
  rw [Board.move, Board.listRemove_spec] at heq
  by_cases hp : p ∈ s.allowed_moves
  · rw [if_pos hp] at heq
    by_cases hlen : p < s.board.length
    · simp only [if_pos hlen] at heq
      injection heq with h2
      subst h2
      have hlp : s.allowed_moves ≠ [] := List.ne_nil_of_mem hp
      by_cases hp18 : p < 18
      · simp only [if_pos hp18]
        simp [Board.pySort_length, List.length_erase_of_mem hp]
        have : 0 < s.allowed_moves.length := List.length_pos.mpr hlp
        omega
      · simp only [if_neg hp18]
        simp [Board.pySort_length, List.length_erase_of_mem hp]
    · simp only [if_neg hlen] at heq
      cases heq
  · rw [if_neg hp] at heq
    cases heq

theorem move_shrinks_allowed_iff_top_layer_witness :
    Board.init.move 0 Player.X = .ok board1 ∧
      board1.allowed_moves.length
        = if (0 : Nat) < 18 then Board.init.allowed_moves.length
          else Board.init.allowed_moves.length - 1 :=
  ⟨by decide, move_shrinks_allowed_iff_top_layer Player.X (by decide)⟩

/-- C9: on any reachable state in which a position `p < 18` and the cell
`p + 9` above it are both occupied by player marks — which satisfies the
spec's stated precondition for `undo_move(p)`, the position being occupied —
`undo_move(p)` raises (`list.remove` cannot find `p + 9` in the legal-move
set) instead of reversing the move; occupancy of `p` alone is therefore not a
sufficient precondition. -/
theorem undo_move_raises_on_occupied_column {s : Board} {p : Nat}
    (h : Board.Reachable s) (hp18 : p < 18)
    (hocc : ∃ pl, Board.cellAt s.board p = some pl)
    (hocc9 : ∃ pl, Board.cellAt s.board (p + 9) = some pl) :
    s.undo_move p = .error PyExc.valueError := by
  obtain ⟨pl, hpl⟩ := hocc
  obtain ⟨pl9, hpl9⟩ := hocc9
  exact Board.undo_fail (Board.inv_of_reachable h) hp18 hpl (by simp [hpl9])

theorem undo_move_raises_on_occupied_column_witness :
    Board.Reachable board2 ∧ (0 : Nat) < 18 ∧
      (∃ pl, Board.cellAt board2.board 0 = some pl) ∧
      (∃ pl, Board.cellAt board2.board 9 = some pl) ∧
      board2.undo_move 0 = .error PyExc.valueError :=
  ⟨reachable_board2, by decide, ⟨Player.X, by decide⟩, ⟨Player.O, by decide⟩,
    undo_move_raises_on_occupied_column reachable_board2 (by decide)
      ⟨Player.X, by decide⟩ ⟨Player.O, by decide⟩⟩

/-- C10: whenever each player's marks fully cover some winning line
simultaneously, `winner` returns `PLAYER_1` (X), because players are scanned
in the fixed order `(PLAYER_1, PLAYER_2)`; `complete` is then true and
`winning_combo` returns a line fully covered by X. -/
theorem winner_prefers_player1 {s : Board}
    (hX : ∃ c ∈ winning_combos, ∀ pos ∈ c, Board.cellAt s.board pos = some Player.X)
    (_hO : ∃ c ∈ winning_combos, ∀ pos ∈ c, Board.cellAt s.board pos = some Player.O) :
    s.winner = some Player.X ∧ s.complete = true ∧
      ∃ c, s.winning_combo = some c ∧ c ∈ winning_combos ∧
        ∀ pos ∈ c, Board.cellAt s.board pos = some Player.X := by
  have hlt : ∀ c ∈ winning_combos, ∀ pos ∈ c, pos < 27 := by decide
  obtain ⟨cX, hcX, hfullX⟩ := hX
  have hallX : (cX.all fun pos => decide (pos ∈ s.get_moves Player.X)) = true := by
    rw [List.all_eq_true]
    intro pos hpos
    exact decide_eq_true (mem_get_moves.mpr ⟨hlt cX hcX pos hpos, hfullX pos hpos⟩)
  have hpredX : (winning_combos.any (fun combo =>
      combo.all (fun pos => decide (pos ∈ s.get_moves Player.X)))) = true := by
    rw [List.any_eq_true]
    exact ⟨cX, hcX, hallX⟩
  have hwin : s.winner = some Player.X := by
    unfold Board.winner playersList
    exact List.find?_cons_of_pos _ hpredX
  refine ⟨hwin, ?_, ?_⟩
  · have hany : (playersList.any fun player => winning_combos.any fun combo =>
        combo.all fun pos => decide (pos ∈ s.available_combos player)) = true := by
      rw [List.any_eq_true]
      refine ⟨Player.X, by simp [playersList], ?_⟩
      rw [List.any_eq_true]
      refine ⟨cX, hcX, ?_⟩
      rw [List.all_eq_true]
      intro pos hpos
      apply decide_eq_true
      rw [Board.available_combos, List.mem_append]
      exact Or.inr (mem_get_moves.mpr ⟨hlt cX hcX pos hpos, hfullX pos hpos⟩)
    simp [Board.complete, hany, hwin]
  · rw [Board.winning_combo, hwin]
    have hsome : (winning_combos.find? fun combo =>
        combo.all fun pos => decide (pos ∈ s.get_moves Player.X)).isSome :=
      List.find?_isSome.mpr ⟨cX, hcX, hallX⟩
    obtain ⟨c, hc⟩ := Option.isSome_iff_exists.mp hsome
    refine ⟨c, hc, List.mem_of_find?_eq_some hc, ?_⟩
    have hp := List.find?_some hc
    rw [List.all_eq_true] at hp
    intro pos hpos
    have hmem := hp pos hpos
    rw [decide_eq_true_eq] at hmem
    exact (mem_get_moves.mp hmem).2

theorem winner_prefers_player1_witness :
    (∃ c ∈ winning_combos, ∀ pos ∈ c, Board.cellAt doubleWinBoard.board pos = some Player.X) ∧
    (∃ c ∈ winning_combos, ∀ pos ∈ c, Board.cellAt doubleWinBoard.board pos = some Player.O) ∧
    doubleWinBoard.winner = some Player.X ∧ doubleWinBoard.complete = true ∧
      ∃ c, doubleWinBoard.winning_combo = some c ∧ c ∈ winning_combos ∧
        ∀ pos ∈ c, Board.cellAt doubleWinBoard.board pos = some Player.X :=
  ⟨⟨[0, 1, 2], by decide, by decide⟩, ⟨[3, 4, 5], by decide, by decide⟩,
    winner_prefers_player1 ⟨[0, 1, 2], by decide, by decide⟩
      ⟨[3, 4, 5], by decide, by decide⟩⟩

theorem except_toOption_eq_some {E A : Type} {x : Except E A} {v : A} :
    x.toOption = some v ↔ x = .ok v := by
  cases x <;> simp [Except.toOption]

theorem mem_of_getElemOpt {l : List Nat} {k a : Nat} (h : l[k]? = some a) : a ∈ l := by
  have hk : k < l.length := by
    by_contra hge
    push_neg at hge
    rw [List.getElem?_eq_none hge] at h
    cases h
  rw [List.getElem?_eq_getElem hk] at h
  injection h with h2
  exact h2 ▸ List.getElem_mem hk

theorem search_preserves_board (piece : Player) (difficulty : Nat) :
    ∀ fuel : Nat,
      (∀ player a b hd st v st2, Board.Inv st.bd →
        think_ahead piece difficulty fuel player a b hd st = some (v, st2) →
        st2.bd = st.bd) ∧
      (∀ player a b hd k st v st2, Board.Inv st.bd →
        ta_max piece difficulty fuel player a b hd k st = some (v, st2) →
        st2.bd = st.bd) ∧
      (∀ player a b hd k st v st2, Board.Inv st.bd →
        ta_min piece difficulty fuel player a b hd k st = some (v, st2) →
        st2.bd = st.bd) := by
  intro fuel
  induction fuel with
  | zero =>
    refine ⟨?_, ?_, ?_⟩
    · intro player a b hd st v st2 _ h
      simp [think_ahead] at h
    · intro player a b hd k st v st2 _ h
      simp [ta_max] at h
    · intro player a b hd k st v st2 _ h
      simp [ta_min] at h
  | succ n ih =>
    obtain ⟨ihT, ihMax, ihMin⟩ := ih
    refine ⟨?_, ?_, ?_⟩
    · intro player a b hd st v st2 hInv h
      simp only [think_ahead] at h
      split at h
      · rw [Option.some.injEq, Prod.mk.injEq] at h
        obtain ⟨-, h2⟩ := h
        rw [← h2]
      · split at h
        · exact ihMax player a b hd 0
            ⟨st.bd, st.depth_count + 1, st.nodes_examined + 1, st.total_nodes_examined⟩
            v st2 hInv h
        · exact ihMin player a b hd 0
            ⟨st.bd, st.depth_count + 1, st.nodes_examined + 1, st.total_nodes_examined⟩
            v st2 hInv h
    · intro player a b hd k st v st2 hInv h
      simp only [ta_max] at h
      split at h
      · rw [Option.some.injEq, Prod.mk.injEq] at h
        obtain ⟨-, h2⟩ := h
        rw [← h2]
      · rename_i m hk
        have hm : m ∈ st.bd.allowed_moves := mem_of_getElemOpt hk
        obtain ⟨t, hmv, hinvt, hundo⟩ := Board.move_roundtrip player hInv hm
        split at h
        · exact Option.noConfusion h
        · rename_i bd2 heq2
          rw [hmv] at heq2
          rw [except_toOption_eq_some] at heq2
          injection heq2 with heq2
          subst heq2
          split at h
          · split at h
            · exact Option.noConfusion h
            · rename_i bd3 heq3
              rw [hundo, except_toOption_eq_some] at heq3
              injection heq3 with heq3
              split at h <;>
                · rw [Option.some.injEq, Prod.mk.injEq] at h
                  obtain ⟨-, h2⟩ := h
                  rw [← h2, ← heq3]
          · split at h
            · exact Option.noConfusion h
            · rename_i h4 depth st4 heq4
              have h4bd : st4.bd = t := ihT (enemy piece) a b hd
                ⟨t, st.depth_count, st.nodes_examined, st.total_nodes_examined⟩
                (h4, depth) st4 hinvt heq4
              split at h
              · rename_i heq5
                rw [h4bd, hundo] at heq5
                simp [Except.toOption] at heq5
              · rename_i bd5 heq5
                rw [h4bd, hundo, except_toOption_eq_some] at heq5
                injection heq5 with heq5
                have hinv5 : Board.Inv bd5 := heq5 ▸ hInv
                split at h <;> split at h
                all_goals first
                  | (rw [Option.some.injEq, Prod.mk.injEq] at h
                     obtain ⟨-, h2⟩ := h
                     rw [← h2]
                     exact heq5.symm)
                  | exact (ihMax _ _ _ _ _ _ _ _ hinv5 h).trans heq5.symm
    · intro player a b hd k st v st2 hInv h
      simp only [ta_min] at h
      split at h
      · rw [Option.some.injEq, Prod.mk.injEq] at h
        obtain ⟨-, h2⟩ := h
        rw [← h2]
      · rename_i m hk
        have hm : m ∈ st.bd.allowed_moves := mem_of_getElemOpt hk
        obtain ⟨t, hmv, hinvt, hundo⟩ := Board.move_roundtrip player hInv hm
        split at h
        · exact Option.noConfusion h
        · rename_i bd2 heq2
          rw [hmv] at heq2
          rw [except_toOption_eq_some] at heq2
          injection heq2 with heq2
          subst heq2
          split at h
          · split at h
            · exact Option.noConfusion h
            · rename_i bd3 heq3
              rw [hundo, except_toOption_eq_some] at heq3
              injection heq3 with heq3
              split at h <;>
                · rw [Option.some.injEq, Prod.mk.injEq] at h
                  obtain ⟨-, h2⟩ := h
                  rw [← h2, ← heq3]
          · split at h
            · exact Option.noConfusion h
            · rename_i h4 depth st4 heq4
              have h4bd : st4.bd = t := ihT piece a b hd
                ⟨t, st.depth_count, st.nodes_examined, st.total_nodes_examined⟩
                (h4, depth) st4 hinvt heq4
              split at h
              · rename_i heq5
                rw [h4bd, hundo] at heq5
                simp [Except.toOption] at heq5
              · rename_i bd5 heq5
                rw [h4bd, hundo, except_toOption_eq_some] at heq5
                injection heq5 with heq5
                have hinv5 : Board.Inv bd5 := heq5 ▸ hInv
                split at h <;> split at h
                all_goals first
                  | (rw [Option.some.injEq, Prod.mk.injEq] at h
                     obtain ⟨-, h2⟩ := h
                     rw [← h2]
                     exact heq5.symm)
                  | exact (ihMin _ _ _ _ _ _ _ _ hinv5 h).trans heq5.symm

theorem sameSearch_elim {x y : Option ((Int × Nat) × SearchState)} (hrel : SameSearch x y) :
    (x = none ∧ y = none) ∨
      ∃ v st st2, x = some (v, st) ∧ y = some (v, st2) ∧
        st.bd = st2.bd ∧ st.depth_count = st2.depth_count := by
  match x, y with
  | none, none => exact Or.inl ⟨rfl, rfl⟩
  | none, some (v2, st2) => exact absurd hrel (by simp [SameSearch])
  | some (v, st), none => exact absurd hrel (by simp [SameSearch])
  | some (v, st), some (v2, st2) =>
    obtain ⟨h1, h2, h3⟩ := hrel
    exact Or.inr ⟨v, st, st2, rfl, by rw [h1], h2, h3⟩

theorem search_ignores_node_counts (piece : Player) (difficulty : Nat) :
    ∀ fuel : Nat,
      (∀ player a b hd bd dc ne1 tne1 ne2 tne2,
        SameSearch
          (think_ahead piece difficulty fuel player a b hd ⟨bd, dc, ne1, tne1⟩)
          (think_ahead piece difficulty fuel player a b hd ⟨bd, dc, ne2, tne2⟩)) ∧
      (∀ player a b hd k bd dc ne1 tne1 ne2 tne2,
        SameSearch
          (ta_max piece difficulty fuel player a b hd k ⟨bd, dc, ne1, tne1⟩)
          (ta_max piece difficulty fuel player a b hd k ⟨bd, dc, ne2, tne2⟩)) ∧
      (∀ player a b hd k bd dc ne1 tne1 ne2 tne2,
        SameSearch
          (ta_min piece difficulty fuel player a b hd k ⟨bd, dc, ne1, tne1⟩)
          (ta_min piece difficulty fuel player a b hd k ⟨bd, dc, ne2, tne2⟩)) := by
  intro fuel
  induction fuel with
  | zero =>
    refine ⟨?_, ?_, ?_⟩
    · intro player a b hd bd dc ne1 tne1 ne2 tne2
      simp [think_ahead, SameSearch]
    · intro player a b hd k bd dc ne1 tne1 ne2 tne2
      simp [ta_max, SameSearch]
    · intro player a b hd k bd dc ne1 tne1 ne2 tne2
      simp [ta_min, SameSearch]
  | succ n ih =>
    obtain ⟨ihT, ihMax, ihMin⟩ := ih
    refine ⟨?_, ?_, ?_⟩
    · intro player a b hd bd dc ne1 tne1 ne2 tne2
      simp only [think_ahead]
      by_cases hc : dc ≥ difficulty
      · simp [hc, SameSearch]
      · simp only [if_neg hc]
        by_cases hp : player = piece
        · simp only [if_pos hp]
          exact ihMax player a b hd 0 bd (dc + 1) (ne1 + 1) tne1 (ne2 + 1) tne2
        · simp only [if_neg hp]
          exact ihMin player a b hd 0 bd (dc + 1) (ne1 + 1) tne1 (ne2 + 1) tne2
    · intro player a b hd k bd dc ne1 tne1 ne2 tne2
      simp only [ta_max]
      generalize bd.allowed_moves[k]? = ok2
      cases ok2 with
      | none => simp [SameSearch]
      | some m =>
        simp only []
        generalize (bd.move m player).toOption = omv
        cases omv with
        | none => simp [SameSearch]
        | some bd2 =>
          simp only []
          by_cases hc : Board.complete bd2
          · simp only [if_pos hc]
            generalize (bd2.undo_move m).toOption = ound
            cases ound with
            | none => simp [SameSearch]
            | some bd3 =>
              simp only []
              by_cases hw : bd2.winner = some player
              · simp [hw, SameSearch]
              · simp [hw, SameSearch]
          · simp only [if_neg hc]
            rcases sameSearch_elim (ihT (enemy piece) a b hd bd2 dc ne1 tne1 ne2 tne2) with
              ⟨h1, h2⟩ | ⟨⟨h4, depth⟩, st4, st4b, h1, h2, hbd, hdc⟩
            · rw [h1, h2]
              simp [SameSearch]
            · rw [h1, h2]
              simp only []
              rw [hbd, hdc]
              generalize (st4b.bd.undo_move m).toOption = ound
              cases ound with
              | none => simp [SameSearch]
              | some bd5 =>
                simp only []
                by_cases hab : (if h4 > a then h4 else a) ≥ b
                · simp [hab, SameSearch]
                · simp only [if_neg hab]
                  exact ihMax player (if h4 > a then h4 else a) b
                    (if h4 > a then depth else hd) (k + 1) bd5 st4b.depth_count
                    st4.nodes_examined st4.total_nodes_examined
                    st4b.nodes_examined st4b.total_nodes_examined
    · intro player a b hd k bd dc ne1 tne1 ne2 tne2
      simp only [ta_min]
      generalize bd.allowed_moves[k]? = ok2
      cases ok2 with
      | none => simp [SameSearch]
      | some m =>
        simp only []
        generalize (bd.move m player).toOption = omv
        cases omv with
        | none => simp [SameSearch]
        | some bd2 =>
          simp only []
          by_cases hc : Board.complete bd2
          · simp only [if_pos hc]
            generalize (bd2.undo_move m).toOption = ound
            cases ound with
            | none => simp [SameSearch]
            | some bd3 =>
              simp only []
              by_cases hw : bd2.winner = some player
              · simp [hw, SameSearch]
              · simp [hw, SameSearch]
          · simp only [if_neg hc]
            rcases sameSearch_elim (ihT piece a b hd bd2 dc ne1 tne1 ne2 tne2) with
              ⟨h1, h2⟩ | ⟨⟨h4, depth⟩, st4, st4b, h1, h2, hbd, hdc⟩
            · rw [h1, h2]
              simp [SameSearch]
            · rw [h1, h2]
              simp only []
              rw [hbd, hdc]
              generalize (st4b.bd.undo_move m).toOption = ound
              cases ound with
              | none => simp [SameSearch]
              | some bd5 =>
                simp only []
                by_cases hab : a ≥ (if h4 < b then h4 else b)
                · simp [hab, SameSearch]
                · simp only [if_neg hab]
                  exact ihMin player a (if h4 < b then h4 else b)
                    (if h4 < b then depth else hd) (k + 1) bd5 st4b.depth_count
                    st4.nodes_examined st4.total_nodes_examined
                    st4b.nodes_examined st4b.total_nodes_examined

theorem reachable_playSeq {l : List (Nat × Player)} : ∀ {s s2 : Board},
    Board.Reachable s → playSeq s l = some s2 → Board.Reachable s2 := by
  induction l with
  | nil =>
    intro s s2 h heq
    simp only [playSeq, Option.some.injEq] at heq
    rw [← heq]
    exact h
  | cons hd tl ih =>
    intro s s2 h heq
    obtain ⟨p, pl⟩ := hd
    simp only [playSeq] at heq
    split at heq
    · rename_i hp
      split at heq
      · rename_i s3 hmv
        exact ih (Board.Reachable.move h hp hmv) heq
      · exact Option.noConfusion heq
    · exact Option.noConfusion heq

theorem reachable_tieBoard : Board.Reachable tieBoard :=
  @reachable_playSeq tieMoves Board.init tieBoard Board.Reachable.init (by decide)

/-- C3: search leaves the board unchanged.  For every reachable board (in
particular every non-complete one), every ply setting, and all `player`,
alpha, beta and depth-hint arguments (in particular those arising in
`do_turn`), whenever `think_ahead` returns, the shared `Board` is exactly its
pre-call state: same cells, same legal-move list in the same order, same move
counter. -/
theorem think_ahead_preserves_board {piece : Player} {difficulty fuel : Nat}
    {player : Player} {a b : Int} {h_depth : Nat} {s : Board} {dc ne tne : Nat}
    {v : Int × Nat} {st2 : SearchState} (hreach : Board.Reachable s)
    (hrun : think_ahead piece difficulty fuel player a b h_depth
      ⟨s, dc, ne, tne⟩ = some (v, st2)) :
    st2.bd = s :=
  (search_preserves_board piece difficulty fuel).1 player a b h_depth
    ⟨s, dc, ne, tne⟩ v st2 (Board.inv_of_reachable hreach) hrun

theorem reachable_nearWinBoard : Board.Reachable nearWinBoard :=
  @reachable_playSeq nearWinMoves Board.init nearWinBoard Board.Reachable.init (by decide)

theorem think_ahead_preserves_board_witness :
    Board.Reachable nearWinBoard ∧
      think_ahead Player.X 1 5 Player.X (-2000) 1000 0 ⟨nearWinBoard, 0, 0, 0⟩
        = some ((1000, 1), ⟨nearWinBoard, 0, 1, 0⟩) ∧
      (⟨nearWinBoard, 0, 1, 0⟩ : SearchState).bd = nearWinBoard :=
  ⟨reachable_nearWinBoard, by decide,
    @think_ahead_preserves_board Player.X 1 5 Player.X (-2000) 1000 0 nearWinBoard 0 0 0
      (1000, 1) ⟨nearWinBoard, 0, 1, 0⟩ reachable_nearWinBoard (by decide)⟩

/-- C8: search determinism.  For a fixed board (cells, legal-move order and
move counter), fixed ply and identical `player`, alpha, beta and depth-hint
arguments, two invocations of `think_ahead` return the same `(score, depth)`
pair: the mutable bookkeeping `nodes_examined` / `total_nodes_examined` does
not influence the result. -/
theorem think_ahead_deterministic (piece : Player) (difficulty fuel : Nat)
    (player : Player) (a b : Int) (h_depth : Nat) (bd : Board)
    (dc ne1 tne1 ne2 tne2 : Nat) :
    Option.map Prod.fst
        (think_ahead piece difficulty fuel player a b h_depth ⟨bd, dc, ne1, tne1⟩)
      = Option.map Prod.fst
        (think_ahead piece difficulty fuel player a b h_depth ⟨bd, dc, ne2, tne2⟩) := by
  rcases sameSearch_elim ((search_ignores_node_counts piece difficulty fuel).1
      player a b h_depth bd dc ne1 tne1 ne2 tne2) with ⟨h1, h2⟩ | ⟨v, st, st2, h1, h2, -, -⟩
  · rw [h1, h2]
  · rw [h1, h2]
    rfl

/-- C7: tie-break and short-circuit in the full-search phase of `do_turn`.
Processing the candidate at index `k` (move `m`, scoring `(h, depth)`)
replaces the running best exactly when `h` is strictly higher than
`best_score`, or `h` equals a `best_score` equal to `LOSE` with a strictly
greater returned depth — no other equal-score case, in particular `TIE`,
updates; and as soon as a candidate scores `WIN` the loop stops immediately,
returning that candidate as `best_move` (which `do_turn` then plays). -/
theorem do_turn_tiebreak_shortcircuit
    (piece : Player) (difficulty fuel k : Nat) (acc : SearchAcc) (st : SearchState)
    (m : Nat) (bd2 : Board) (h : Int) (depth : Nat) (st4 : SearchState) (bd6 : Board)
    (hk : st.bd.allowed_moves[k]? = some m)
    (hmv : (st.bd.move m piece).toOption = some bd2)
    (hta : think_ahead piece difficulty fuel (enemy piece) (2 * LOSE) WIN 0
      ⟨bd2, st.depth_count, st.nodes_examined, st.total_nodes_examined⟩
        = some ((h, depth), st4))
    (hundo : (st4.bd.undo_move m).toOption = some bd6)
    (hnw : acc.best_score < WIN) :
    (find_optimal piece difficulty (fuel + 1) k acc st
      = if h > acc.best_score ∨ (h = acc.best_score ∧ acc.best_score = LOSE ∧ depth > acc.best_depth)
        then (if h = WIN
          then some (⟨h, depth, some m⟩,
            ⟨bd6, 0, 0, st4.total_nodes_examined + st4.nodes_examined⟩)
          else find_optimal piece difficulty fuel (k + 1) ⟨h, depth, some m⟩
            ⟨bd6, 0, 0, st4.total_nodes_examined + st4.nodes_examined⟩)
        else find_optimal piece difficulty fuel (k + 1) acc
          ⟨bd6, 0, 0, st4.total_nodes_examined + st4.nodes_examined⟩) ∧
    (h = WIN →
      find_optimal piece difficulty (fuel + 1) k acc st
        = some (⟨WIN, depth, some m⟩,
            ⟨bd6, 0, 0, st4.total_nodes_examined + st4.nodes_examined⟩)) := by
  have hmain : find_optimal piece difficulty (fuel + 1) k acc st
      = if h > acc.best_score ∨ (h = acc.best_score ∧ acc.best_score = LOSE ∧ depth > acc.best_depth)
        then (if h = WIN
          then some (⟨h, depth, some m⟩,
            ⟨bd6, 0, 0, st4.total_nodes_examined + st4.nodes_examined⟩)
          else find_optimal piece difficulty fuel (k + 1) ⟨h, depth, some m⟩
            ⟨bd6, 0, 0, st4.total_nodes_examined + st4.nodes_examined⟩)
        else find_optimal piece difficulty fuel (k + 1) acc
          ⟨bd6, 0, 0, st4.total_nodes_examined + st4.nodes_examined⟩ := by
    simp only [find_optimal, hk, hmv, hta, hundo]
    by_cases hcond : h > acc.best_score ∨ (h = acc.best_score ∧ acc.best_score = LOSE ∧ depth > acc.best_depth)
    · simp only [if_pos hcond]
    · simp only [if_neg hcond]
      have hne : ¬acc.best_score = WIN := by omega
      simp [hne]
  refine ⟨hmain, ?_⟩
  intro hW
  have hcond : h > acc.best_score ∨ (h = acc.best_score ∧ acc.best_score = LOSE ∧ depth > acc.best_depth) :=
    Or.inl (by rw [hW]; exact hnw)
  rw [hmain, if_pos hcond, if_pos hW, hW]

theorem do_turn_tiebreak_shortcircuit_witness :
    Board.init.allowed_moves[0]? = some 0 ∧
    (Board.init.move 0 Player.X).toOption = some board1 ∧
    think_ahead Player.X 0 1 (enemy Player.X) (2 * LOSE) WIN 0 ⟨board1, 0, 0, 0⟩
      = some ((7, 0), ⟨board1, 0, 1, 0⟩) ∧
    ((⟨board1, 0, 1, 0⟩ : SearchState).bd.undo_move 0).toOption = some Board.init ∧
    (2 * LOSE : Int) < WIN ∧
    find_optimal Player.X 0 2 0 ⟨2 * LOSE, 0, none⟩ ⟨Board.init, 0, 0, 0⟩
      = find_optimal Player.X 0 1 1 ⟨7, 0, some 0⟩ ⟨Board.init, 0, 0, 1⟩ := by
  refine ⟨by decide, by decide, by decide, by decide, by decide, ?_⟩
  have hmain := (do_turn_tiebreak_shortcircuit Player.X 0 1 0 ⟨2 * LOSE, 0, none⟩
    ⟨Board.init, 0, 0, 0⟩ 0 board1 7 0 ⟨board1, 0, 1, 0⟩ Board.init
    (by decide) (by decide) (by decide) (by decide) (by decide)).1
  rw [hmain]
  have hcond : (7 : Int) > (⟨2 * LOSE, 0, none⟩ : SearchAcc).best_score ∨
      ((7 : Int) = (⟨2 * LOSE, 0, none⟩ : SearchAcc).best_score ∧
        (⟨2 * LOSE, 0, none⟩ : SearchAcc).best_score = LOSE ∧
        0 > (⟨2 * LOSE, 0, none⟩ : SearchAcc).best_depth) :=
    Or.inl (by decide)
  rw [if_pos hcond, if_neg (by decide : ¬(7 : Int) = WIN)]
  rfl

/-- C4: for every `Board` state, `complete` is true exactly when a winner
exists or no winning line remains achievable by either player — a line being
achievable for a player when each of its cells is in the legal-move set or
already occupied by that player; in particular (second conjunct) the game can
be complete as a tie on a reachable position with cells still empty. -/
theorem complete_iff_winner_or_no_achievable :
    (∀ s : Board, s.complete = true ↔
      (s.winner.isSome = true ∨
        ∀ pl : Player, ∀ combo ∈ winning_combos, ¬specAchievable s pl combo)) ∧
    (Board.Reachable tieBoard ∧ tieBoard.complete = true ∧ tieBoard.winner = none ∧
      tieBoard.moves = 20 ∧ Board.cellAt tieBoard.board 4 = none) := by
  constructor
  · intro s
    have hlt : ∀ c ∈ winning_combos, ∀ pos ∈ c, pos < 27 := by decide
    have hbridge : ∀ pl combo, combo ∈ winning_combos →
        ((combo.all fun pos => decide (pos ∈ s.available_combos pl)) = true
          ↔ specAchievable s pl combo) := by
      intro pl combo hcm
      rw [List.all_eq_true]
      constructor
      · intro hall pos hpos
        have hmem := hall pos hpos
        rw [decide_eq_true_eq, Board.available_combos, List.mem_append] at hmem
        rcases hmem with hA | hG
        · exact Or.inl hA
        · exact Or.inr (mem_get_moves.mp hG).2
      · intro hach pos hpos
        apply decide_eq_true
        rw [Board.available_combos, List.mem_append]
        rcases hach pos hpos with hA | hC
        · exact Or.inl hA
        · exact Or.inr (mem_get_moves.mpr ⟨hlt combo hcm pos hpos, hC⟩)
    simp only [Board.complete]
    split
    · rename_i hc
      constructor
      · exact fun hw => Or.inl hw
      · rintro (hw | hno)
        · exact hw
        · exfalso
          rw [List.any_eq_true] at hc
          obtain ⟨pl, -, hany⟩ := hc
          rw [List.any_eq_true] at hany
          obtain ⟨combo, hcm, hall⟩ := hany
          exact hno pl combo hcm ((hbridge pl combo hcm).mp hall)
    · rename_i hc
      constructor
      · intro _
        refine Or.inr ?_
        intro pl combo hcm hach
        apply hc
        rw [List.any_eq_true]
        refine ⟨pl, ?_, ?_⟩
        · cases pl <;> simp [playersList]
        · rw [List.any_eq_true]
          exact ⟨combo, hcm, (hbridge pl combo hcm).mpr hach⟩
      · intro _
        rfl
  · exact ⟨reachable_tieBoard, by decide, by decide, by decide, by decide⟩
